import Mathlib

/-!
Verification model of the spendable-output sweep pipeline of
`yuv-lightning-ldk-sample` (`src/sweep.rs`, function `periodic_sweep`, plus the
producer deposit path of `src/main.rs`, `Event::SpendableOutputs`).

The three filesystem directories of the source become three keyed keyspaces:
`pending_spendable_outputs` (intake), `processing_spendable_outputs` (staging),
and `spendable_outputs` (claim queue).  Each directory is modelled as
`Option (List Entry)`: `none` is an absent directory (on which `fs::read_dir`
errors), `some l` is a directory holding entries in enumeration order.
Bytes are modelled as `List Nat`.
-/
deriving instance DecidableEq for Except

namespace SweepModel

/-! ## Data model and operations (translated from the source) -/

/-- Modelled from the spec: the `SpendableOutputDescriptor` codec lives in the
external `lightning` crate, not in this repository.  Per the spec (§3, §9) a
descriptor is a variant-tagged record whose self-framing binary encoding is
decodable from its own tag plus an implied, tag-determined length, with no
external length table.  We model three variants (tags 0, 1, 2) whose payload
lengths are fixed per tag; tags 0 and 1 give total encoded sizes of 40 and 55
bytes, matching the sizes used in the concrete scenario of the spec. -/
structure Descriptor where
  tag : Nat
  payload : List Nat
deriving DecidableEq, Repr

/-- Payload length implied by a variant tag (`none`: unknown tag, decode fails). -/
def tagLen : Nat → Option Nat
  | 0 => some 39
  | 1 => some 54
  | 2 => some 31
  | _ => none

/-- A well-formed descriptor: its payload has exactly the length its tag implies. -/
def wfDesc (d : Descriptor) : Prop := tagLen d.tag = some d.payload.length

instance (d : Descriptor) : Decidable (wfDesc d) := by
  unfold wfDesc; infer_instance

/-- Self-framing encoding: the tag byte followed by the payload bytes. -/
def encodeDesc (d : Descriptor) : List Nat := d.tag :: d.payload

/-- Decode one self-framed descriptor from the front of a byte stream,
returning it together with the remaining bytes (`none`: decode failure, which
the source turns into a panic via `Readable::read(..).unwrap()`). -/
def decodeDesc : List Nat → Option (Descriptor × List Nat)
  | [] => none
  | t :: rest =>
    match tagLen t with
    | none => none
    | some n => if n ≤ rest.length then some (⟨t, rest.take n⟩, rest.drop n) else none

/-- Iteration core of the stream-decode loop; the fuel argument only bounds
the number of iterations and, started at the stream length, is never
exhausted since each decode consumes at least one byte (`decodeDesc_shrink`). -/
def streamDecodeGo : Nat → List Nat → Option (List Descriptor)
  | _, [] => some []
  | 0, _ :: _ => none
  | fuel+1, b :: bs =>
    match decodeDesc (b :: bs) with
    | none => none
    | some (d, rest) => (streamDecodeGo fuel rest).map (fun l => d :: l)

/-- The stream-decode loop of `periodic_sweep` (src/sweep.rs lines 102-112):
while at least one byte remains, read one self-framed descriptor; a failed
read is an unwrap panic, modelled as `none`. -/
def streamDecode (bs : List Nat) : Option (List Descriptor) :=
  streamDecodeGo bs.length bs

/-- One keyspace entry: a file, keyed by its file name, holding raw bytes. -/
structure Entry where
  key : String
  val : List Nat
deriving DecidableEq, Repr

/-- The three directories of the pipeline.  `none` models an absent directory
(`fs::read_dir` on it errors); `some l` a directory with entries `l` in
enumeration order. -/
structure FsState where
  pending : Option (List Entry)
  processing : Option (List Entry)
  spendables : Option (List Entry)
deriving DecidableEq, Repr

/-- Entries a `read_dir` loop would see: an absent directory yields nothing. -/
def entriesOf (o : Option (List Entry)) : List Entry := o.getD []

/-- Concatenation of the raw bytes of a list of entries, in enumeration order
(src/sweep.rs lines 77-82). -/
def concatVals (l : List Entry) : List Nat := (l.map Entry.val).flatten

/-- One transaction produced by the signer (`spend_yuv_spendable_outputs`),
abstracted to an identifier; its YUV proof data travels with it. -/
structure Tx where
  id : Nat
deriving DecidableEq, Repr

/-- Externally observable side effects of a tick. -/
structure Effects where
  proofs : List Tx
  broadcasts : List Tx
  logged : List String
deriving DecidableEq, Repr

def Effects.empty : Effects := ⟨[], [], []⟩

/-- The external collaborators of one tick, abstracted as pure oracles:
`newKey` is the fresh random hex key drawn for the claim batch;
`changeKeyOk` is whether `wallet.get_change_yuv_pubkey()` succeeds;
`sign` is `keys_manager.spend_yuv_spendable_outputs` (fee rate, destination
key and anti-fee-sniping locktime are absorbed into this abstract signer);
`emulate` is `yuv_client.emulate_yuv_transaction` (`some reason` = rejected);
`yuvPresent` is whether the optional YUV client was configured
(`yuv_client.is_some()` in src/main.rs). -/
structure Externals where
  newKey : String
  changeKeyOk : Bool
  sign : List Descriptor → Except String (List Tx)
  emulate : Tx → Option String
  yuvPresent : Bool

/-- Injected I/O failures.  `intakeScan`: `fs::read_dir(&pending_spendables_dir)`
errors (handled by `if let Ok`); `rename`: `fs::rename(..).unwrap()` fails
(panic); `queueWrite`: `persister.write(..).unwrap()` fails (panic). -/
structure Faults where
  intakeScan : Bool
  rename : Bool
  queueWrite : Bool
deriving DecidableEq, Repr

def noFaults : Faults := ⟨false, false, false⟩

/-- A conforming intake file name: `file.file_name().len() == 64`
(src/sweep.rs line 67).  Only the length is checked. -/
def conforming (e : Entry) : Prop := e.key.length = 64

instance (e : Entry) : Decidable (conforming e) := by
  unfold conforming; infer_instance

/-- The consolidation phase of one tick (src/sweep.rs lines 60-90):
if the intake directory is readable, relocate every entry whose name has
length 64 into staging, concatenate everything staged, and if the result is
non-empty write it to the claim queue under `newKey` and remove the staging
directory.  `Except.error ()` is an unwrap panic. -/
def consolidate (newKey : String) (f : Faults) (st : FsState) : Except Unit FsState :=
  if st.pending.isNone || f.intakeScan then Except.ok st
  else
    let l := entriesOf st.pending
    if f.rename ∧ l.any (fun e => e.key.length = 64) then Except.error ()
    else
      let conf := l.filter (fun e => e.key.length = 64)
      let pending2 := l.filter (fun e => ¬ e.key.length = 64)
      let processing2 :=
        if conf.isEmpty then st.processing else some (entriesOf st.processing ++ conf)
      let outs := concatVals (entriesOf processing2)
      if outs.isEmpty then
        Except.ok ⟨some pending2, processing2, st.spendables⟩
      else if f.queueWrite then Except.error ()
      else
        Except.ok ⟨some pending2, none,
          some (entriesOf st.spendables ++ [⟨newKey, outs⟩])⟩

/-- Outcome of a (phase of a) tick: it either ran to completion or panicked on
an `unwrap`, with the side effects produced up to that point. -/
inductive Outcome (α : Type)
| done (a : α)
| panicked (fx : Effects)
deriving DecidableEq, Repr

/-- The per-transaction loop of one batch (src/sweep.rs lines 139-168): for
each signed transaction, dereference the optional YUV client (`.unwrap()` —
a panic when it is absent), dry-run it against the token layer; a rejection
is logged and skips only this transaction; otherwise publish its proofs and
broadcast it. -/
def processTxs (ex : Externals) : List Tx → Effects → Outcome Effects
  | [], fx => Outcome.done fx
  | t :: ts, fx =>
    if ex.yuvPresent then
      match ex.emulate t with
      | some reason =>
          processTxs ex ts { fx with logged := fx.logged ++ ["Invalid spending YUV tx: " ++ reason] }
      | none =>
          processTxs ex ts
            { fx with proofs := fx.proofs ++ [t], broadcasts := fx.broadcasts ++ [t] }
    else Outcome.panicked fx

/-- Processing of one claim-queue entry (src/sweep.rs lines 99-177): decode
the byte stream (decode failure is an unwrap panic), resolve the change key of the wallet (failure logs and abandons only this batch), sign (failure logs),
then run the per-transaction loop. -/
def processBatch (ex : Externals) (e : Entry) (fx : Effects) : Outcome Effects :=
  match streamDecode e.val with
  | none => Outcome.panicked fx
  | some outs =>
    if ex.changeKeyOk then
      match ex.sign outs with
      | Except.error err => Outcome.done { fx with logged := fx.logged ++ [err] }
      | Except.ok txs => processTxs ex txs fx
    else Outcome.done { fx with logged := fx.logged ++ ["Failed to get change YUV pubkey"] }

def processBatches (ex : Externals) : List Entry → Effects → Outcome Effects
  | [], fx => Outcome.done fx
  | e :: es, fx =>
    match processBatch ex e fx with
    | Outcome.done fx' => processBatches ex es fx'
    | Outcome.panicked fx' => Outcome.panicked fx'

/-- The sweep phase of one tick (src/sweep.rs lines 98-181): if the claim
queue directory is readable, process every entry, then remove the whole
directory unconditionally. -/
def sweepPhase (ex : Externals) (st : FsState) : Outcome (FsState × Effects) :=
  match st.spendables with
  | none => Outcome.done (st, Effects.empty)
  | some es =>
    match processBatches ex es Effects.empty with
    | Outcome.done fx => Outcome.done (⟨st.pending, st.processing, none⟩, fx)
    | Outcome.panicked fx => Outcome.panicked fx

/-- One full tick of `periodic_sweep`: consolidation followed by the sweep
phase (the body of the `loop` in src/sweep.rs lines 58-182). -/
def tick (ex : Externals) (f : Faults) (st : FsState) : Outcome (FsState × Effects) :=
  match consolidate ex.newKey f st with
  | Except.error _ => Outcome.panicked Effects.empty
  | Except.ok st1 => sweepPhase ex st1

/-! ## Crash-interleaving small-step model

For the reachability invariants we refine the consolidation phase into its
primitive filesystem mutations, so that a crash (or an observation) at any
instruction boundary is a reachable state.  Producer deposits
(src/main.rs lines 531-536) interleave freely; tick steps follow program
order, recorded by the `stagedCommitted` flag: the claim-batch write
(src/sweep.rs lines 85-87) has happened but the staging removal
(line 88) has not yet.  A crash clears the flag (the program counter is
lost; the next tick restarts from the top of the loop). -/
structure PipeState where
  fs : FsState
  stagedCommitted : Bool
  log : List Entry
deriving DecidableEq, Repr

/-- The initial state: a fresh data directory, nothing deposited. -/
def init0 : PipeState := ⟨⟨none, none, none⟩, false, []⟩

/-- One primitive state change of the pipeline. -/
inductive Step : PipeState → PipeState → Prop
  /-- A producer deposit (src/main.rs line 535): `fs_store.write` creates the
  intake directory if needed and adds one entry under a fresh 64-hex key
  (`hex_str` of 32 random bytes).  The ghost `log` records it. -/
  | deposit (s : PipeState) (k : String) (b : List Nat) (hk : k.length = 64) :
      Step s ⟨⟨some (entriesOf s.fs.pending ++ [⟨k, b⟩]), s.fs.processing, s.fs.spendables⟩,
        s.stagedCommitted, s.log ++ [⟨k, b⟩]⟩
  /-- One `fs::rename` of a conforming intake entry into staging
  (src/sweep.rs lines 67-72); `create_dir_all` makes the staging directory
  exist.  Renames happen before any claim-batch write of the same tick. -/
  | moveOne (s : PipeState) (l : List Entry) (e : Entry)
      (hp : s.fs.pending = some l) (he : e ∈ l) (hk : e.key.length = 64)
      (hph : s.stagedCommitted = false) :
      Step s ⟨⟨some (l.erase e), some (entriesOf s.fs.processing ++ [e]), s.fs.spendables⟩,
        false, s.log⟩
  /-- The claim-batch write (src/sweep.rs lines 83-87): the concatenation of
  everything currently staged, when non-empty, is written to the claim queue
  under a fresh key.  Staging is not yet removed. -/
  | writeBatch (s : PipeState) (k : String)
      (hph : s.stagedCommitted = false)
      (hne : ¬ concatVals (entriesOf s.fs.processing) = []) :
      Step s ⟨⟨s.fs.pending, s.fs.processing,
        some (entriesOf s.fs.spendables ++ [⟨k, concatVals (entriesOf s.fs.processing)⟩])⟩,
        true, s.log⟩
  /-- `fs::remove_dir_all(&processing_spendables_dir)` (src/sweep.rs line 88),
  executed only directly after the claim-batch write of the same tick. -/
  | clearStaging (s : PipeState) (hph : s.stagedCommitted = true) :
      Step s ⟨⟨s.fs.pending, none, s.fs.spendables⟩, false, s.log⟩
  /-- A process crash at an arbitrary instruction boundary: the filesystem is
  untouched, the in-tick program counter is lost. -/
  | crash (s : PipeState) : Step s ⟨s.fs, false, s.log⟩

/-- States reachable from a fresh data directory by deposits, consolidation
steps and crashes (no sweep-tick cleanup has happened yet). -/
inductive Reach : PipeState → Prop
  | init : Reach init0
  | step {s s' : PipeState} : Reach s → Step s s' → Reach s'

/-- `startsSeg xs ys`: `ys` begins with the bytes `xs`. -/
def startsSeg : List Nat → List Nat → Bool
  | [], _ => true
  | _ :: _, [] => false
  | a :: as, b :: bs => a = b && startsSeg as bs

/-- `hasSeg xs ys`: `xs` occurs in `ys` as a contiguous byte segment. -/
def hasSeg (xs : List Nat) : List Nat → Bool
  | [] => startsSeg xs []
  | y :: ys => startsSeg xs (y :: ys) || hasSeg xs ys

/-- The bytes of a deposited entry are present in the claim queue: some claim-queue
entry contains them as a contiguous segment (its keyed identity is gone once
concatenated into a batch). -/
def inQueue (e : Entry) (fs : FsState) : Prop :=
  (entriesOf fs.spendables).any (fun q => hasSeg e.val q.val) = true

instance (e : Entry) (fs : FsState) : Decidable (inQueue e fs) := by
  unfold inQueue; infer_instance

/-- Presence of a deposited entry in at least one of the three keyspaces. -/
def present (e : Entry) (fs : FsState) : Prop :=
  e ∈ entriesOf fs.pending ∨ e ∈ entriesOf fs.processing ∨ inQueue e fs

/-- In how many of the three keyspaces the entry is present. -/
def presCount (e : Entry) (fs : FsState) : Nat :=
  (if e ∈ entriesOf fs.pending then 1 else 0) +
  (if e ∈ entriesOf fs.processing then 1 else 0) +
  (if inQueue e fs then 1 else 0)

/-! ## Byte totals -/
def dirBytes (o : Option (List Entry)) : Nat :=
  ((entriesOf o).map (fun e => e.val.length)).sum

def totalBytes (fs : FsState) : Nat :=
  dirBytes fs.pending + dirBytes fs.processing + dirBytes fs.spendables

def depositedBytes (log : List Entry) : Nat :=
  (log.map (fun e => e.val.length)).sum

/-- A well-formed descriptor of encoded size 40 bytes (tag 0). -/
def descA : Descriptor := ⟨0, List.replicate 39 7⟩

/-- A well-formed descriptor of encoded size 55 bytes (tag 1). -/
def descB : Descriptor := ⟨1, List.replicate 54 9⟩

/-- A 64-hex-character intake key, as produced by `hex_str` of 32 random bytes. -/
def keyHex : String :=
  "a1b2c3d4a1b2c3d4a1b2c3d4a1b2c3d4a1b2c3d4a1b2c3d4a1b2c3d4a1b2c3d4"

/-- Another 64-character key. -/
def keyA : String :=
  "aaaaaaaaaaaaaaaaaaaaaaaaaaaaaaaaaaaaaaaaaaaaaaaaaaaaaaaaaaaaaaaa"

/-- A fresh 64-character key used for claim batches. -/
def keyB : String :=
  "bbbbbbbbbbbbbbbbbbbbbbbbbbbbbbbbbbbbbbbbbbbbbbbbbbbbbbbbbbbbbbbb"

/-- A 64-character file name that is NOT hexadecimal. -/
def keyZ : String :=
  "zzzzzzzzzzzzzzzzzzzzzzzzzzzzzzzzzzzzzzzzzzzzzzzzzzzzzzzzzzzzzzzz"

/-- Benign externals: key resolution succeeds, signing yields one
transaction, the token layer accepts everything, and a YUV client is
configured. -/
def exB : Externals :=
  ⟨keyB, true, fun _ => Except.ok [⟨0⟩], fun _ => none, true⟩

/-- The byte-conservation inductive invariant: no byte deposited has been
lost, and once the claim batch of a tick has been committed, intake and
claim queue alone already cover every deposited byte. -/
def bytesInv (s : PipeState) : Prop :=
  depositedBytes s.log ≤ totalBytes s.fs ∧
  (s.stagedCommitted = true →
    depositedBytes s.log ≤ dirBytes s.fs.pending + dirBytes s.fs.spendables)

/-- The presence inductive invariant: every deposited entry is present in at
least one keyspace, and once the claim batch of a tick has been committed,
intake and claim queue alone already cover every deposited entry. -/
def presInv (s : PipeState) : Prop :=
  (∀ e ∈ s.log, present e s.fs) ∧
  (s.stagedCommitted = true →
    ∀ e ∈ s.log, e ∈ entriesOf s.fs.pending ∨ inQueue e s.fs)

/-- One deposited intake entry holding a 40-byte descriptor. -/
def entA : Entry := ⟨keyHex, encodeDesc descA⟩

/-- State after the deposit of `entA`. -/
def dupS1 : PipeState := ⟨⟨some [entA], none, none⟩, false, [entA]⟩

/-- State after the consolidation tick relocated `entA` into staging. -/
def dupS2 : PipeState := ⟨⟨some [], some [entA], none⟩, false, [entA]⟩

/-- State right after the claim-batch write (src/sweep.rs lines 85-87) and
before the staging removal (line 88): the descriptor bytes sit in staging AND
in the claim queue simultaneously. -/
def dupS3 : PipeState :=
  ⟨⟨some [], some [entA], some [⟨keyB, encodeDesc descA⟩]⟩, true, [entA]⟩

/-! ## Characterization of the consolidation phase without faults -/
def conformingOf (l : List Entry) : List Entry :=
  l.filter (fun e => e.key.length = 64)

/-- The state `consolidate` produces from a readable intake directory when no
I/O fault fires (mirrors src/sweep.rs lines 63-89 step by step). -/
def consolidateResult (k : String) (st : FsState) (l : List Entry) : FsState :=
  let conf := conformingOf l
  let pending2 := l.filter (fun e => ¬ e.key.length = 64)
  let processing2 :=
    if conf.isEmpty then st.processing else some (entriesOf st.processing ++ conf)
  let outs := concatVals (entriesOf processing2)
  if outs.isEmpty then ⟨some pending2, processing2, st.spendables⟩
  else ⟨some pending2, none, some (entriesOf st.spendables ++ [⟨k, outs⟩])⟩

/-- Intake holding a conforming entry with a non-descriptor value. -/
def stC4 : FsState := ⟨some [⟨keyA, [1, 2, 3]⟩], none, none⟩

/-- Only `fs::rename` fails. -/
def renameFault : Faults := ⟨false, true, false⟩

/-- Intake scan fails; everything else works. -/
def scanFault : Faults := ⟨true, false, false⟩

/-- Intake holding one conforming entry with an empty value. -/
def stC5 : FsState := ⟨some [⟨keyA, []⟩], none, none⟩

/-- Intake holding one entry with a 64-character non-hex key. -/
def stC6 : FsState := ⟨some [⟨keyZ, encodeDesc descA⟩], none, none⟩

/-- The concrete scenario of the spec: one intake entry, 64-hex key, value the
concatenation of a 40-byte and a 55-byte self-framed descriptor. -/
def bytesC3 : List Nat := encodeDesc descA ++ encodeDesc descB

def stC3 : FsState := ⟨some [⟨keyHex, bytesC3⟩], none, none⟩

/-- The state after the consolidation phase of the first tick on `stC3`. -/
def stMidC3 : FsState := ⟨some [], none, some [⟨keyB, bytesC3⟩]⟩

/-- Externals whose wallet change-key resolution fails. -/
def exKeyFail : Externals :=
  ⟨keyB, false, fun _ => Except.ok [⟨0⟩], fun _ => none, true⟩

/-- Externals whose token layer rejects transaction id 1 and accepts the rest. -/
def exC9 : Externals :=
  ⟨keyB, true, fun _ => Except.ok [],
    fun t => if t.id = 1 then some "bad proof" else none, true⟩

/-- Externals of a deployment with NO token-layer client configured. -/
def exNoYuv : Externals := ⟨keyB, true, fun _ => Except.ok [⟨0⟩], fun _ => none, false⟩

/-- A claim queue holding one decodable batch. -/
def stC10 : FsState := ⟨none, none, some [⟨keyA, encodeDesc descA⟩]⟩

/-! ## Theorems -/

theorem decodeDesc_shrink (bs : List Nat) (d : Descriptor) (rest : List Nat)
    (h : decodeDesc bs = some (d, rest)) : rest.length < bs.length := by
  cases bs with
  | nil => simp [decodeDesc] at h
  | cons t tl =>
    simp only [decodeDesc] at h
    cases htag : tagLen t with
    | none => rw [htag] at h; simp at h
    | some n =>
      rw [htag] at h
      by_cases hn : n ≤ tl.length
      · simp [hn] at h
        rcases h with ⟨_, hrest⟩
        subst hrest
        simp [List.length_drop]
        omega
      · simp [hn] at h

theorem streamDecodeGo_congr : ∀ (f1 f2 : Nat) (bs : List Nat),
    bs.length ≤ f1 → bs.length ≤ f2 → streamDecodeGo f1 bs = streamDecodeGo f2 bs := by
  intro f1
  induction f1 with
  | zero =>
    intro f2 bs h1 _
    have hb : bs = [] := List.length_eq_zero.mp (Nat.le_zero.mp h1)
    subst hb
    cases f2 <;> rfl
  | succ g ih =>
    intro f2 bs h1 h2
    cases bs with
    | nil => cases f2 <;> rfl
    | cons b bs' =>
      cases f2 with
      | zero => simp at h2
      | succ g2 =>
        simp only [streamDecodeGo]
        cases hd : decodeDesc (b :: bs') with
        | none => rfl
        | some p =>
          obtain ⟨d, rest⟩ := p
          have hr := decodeDesc_shrink (b :: bs') d rest hd
          simp only [List.length_cons] at h1 h2 hr
          have hr1 : rest.length ≤ g := by omega
          have hr2 : rest.length ≤ g2 := by omega
          show (streamDecodeGo g rest).map (fun l => d :: l) =
            (streamDecodeGo g2 rest).map (fun l => d :: l)
          rw [ih g2 rest hr1 hr2]

theorem streamDecode_nil : streamDecode [] = some [] := rfl

theorem decodeDesc_encode (d : Descriptor) (tl : List Nat) (hwf : wfDesc d) :
    decodeDesc (encodeDesc d ++ tl) = some (d, tl) := by
  unfold wfDesc at hwf
  simp only [encodeDesc, List.cons_append, decodeDesc, hwf]
  have hle : d.payload.length ≤ (d.payload ++ tl).length := by
    simp [List.length_append]
  simp [hle, List.take_left' rfl, List.drop_left' rfl]

theorem streamDecode_encode_cons (d : Descriptor) (tl : List Nat) (hwf : wfDesc d) :
    streamDecode (encodeDesc d ++ tl) = (streamDecode tl).map (fun l => d :: l) := by
  have hshape : encodeDesc d ++ tl = d.tag :: (d.payload ++ tl) := by
    simp [encodeDesc]
  have hdec : decodeDesc (d.tag :: (d.payload ++ tl)) = some (d, tl) := by
    have := decodeDesc_encode d tl hwf
    rw [hshape] at this
    exact this
  unfold streamDecode
  rw [hshape]
  have hlen : (d.tag :: (d.payload ++ tl)).length = (d.payload ++ tl).length + 1 := by
    simp
  rw [hlen]
  simp only [streamDecodeGo, hdec]
  have : streamDecodeGo (d.payload ++ tl).length tl = streamDecodeGo tl.length tl :=
    streamDecodeGo_congr _ _ tl (by simp [List.length_append]) (Nat.le.refl)
  rw [this]

theorem startsSeg_self_append (xs tl : List Nat) : startsSeg xs (xs ++ tl) = true := by
  induction xs with
  | nil => rfl
  | cons a as ih => simp [startsSeg, ih]

theorem hasSeg_of_startsSeg {xs ys : List Nat} (h : startsSeg xs ys = true) :
    hasSeg xs ys = true := by
  cases ys with
  | nil => simpa [hasSeg] using h
  | cons y ys => simp [hasSeg, h]

theorem hasSeg_append_left (xs pre ys : List Nat) (h : hasSeg xs ys = true) :
    hasSeg xs (pre ++ ys) = true := by
  induction pre with
  | nil => simpa using h
  | cons p ps ih => simp [hasSeg, ih]

theorem hasSeg_seg (xs pre tl : List Nat) : hasSeg xs (pre ++ xs ++ tl) = true := by
  have h1 : hasSeg xs (xs ++ tl) = true :=
    hasSeg_of_startsSeg (startsSeg_self_append xs tl)
  simpa [List.append_assoc] using hasSeg_append_left xs pre (xs ++ tl) h1

theorem hasSeg_concatVals {e : Entry} {l : List Entry} (h : e ∈ l) :
    hasSeg e.val (concatVals l) = true := by
  induction l with
  | nil => cases h
  | cons a l ih =>
    rcases List.mem_cons.mp h with h | h
    · subst h
      have := hasSeg_seg e.val [] (concatVals l)
      simpa [concatVals] using this
    · have := ih h
      simpa [concatVals] using hasSeg_append_left e.val a.val (concatVals l) this

/-! ## Invariant machinery -/
@[simp] theorem entriesOf_some (l : List Entry) : entriesOf (some l) = l := rfl

@[simp] theorem entriesOf_none : entriesOf none = [] := rfl

@[simp] theorem dirBytes_some (l : List Entry) :
    dirBytes (some l) = (l.map (fun e => e.val.length)).sum := rfl

@[simp] theorem dirBytes_none : dirBytes none = 0 := rfl

theorem concatVals_cons (a : Entry) (l : List Entry) :
    concatVals (a :: l) = a.val ++ concatVals l := by
  simp [concatVals]

theorem length_concatVals (l : List Entry) :
    (concatVals l).length = (l.map (fun e => e.val.length)).sum := by
  induction l with
  | nil => rfl
  | cons a l ih => simp [concatVals_cons, ih]

theorem sum_map_erase (f : Entry → Nat) (e : Entry) (l : List Entry) (h : e ∈ l) :
    ((l.erase e).map f).sum + f e = (l.map f).sum := by
  induction l with
  | nil => cases h
  | cons a l ih =>
    by_cases hae : a = e
    · subst hae
      simp [List.erase_cons_head]
      omega
    · have herase : (a :: l).erase e = a :: l.erase e := by
        simp [List.erase_cons, beq_iff_eq, hae]
      rw [herase]
      rcases List.mem_cons.mp h with h' | h'
      · exact absurd h'.symm hae
      · simp only [List.map_cons, List.sum_cons]
        have := ih h'
        omega

theorem bytesInv_step {s s' : PipeState} (hs : Step s s') (hi : bytesInv s) : bytesInv s' := by
  obtain ⟨h1, h2⟩ := hi
  unfold bytesInv depositedBytes totalBytes dirBytes at *
  cases hs with
  | deposit k b hk =>
    simp only [entriesOf_some, List.map_append, List.sum_append, List.map_cons,
      List.map_nil, List.sum_cons, List.sum_nil] at *
    refine ⟨by omega, fun hc => ?_⟩
    have := h2 hc
    omega
  | moveOne l e hp he hk hph =>
    have herase := sum_map_erase (fun e => e.val.length) e l he
    rw [hp] at h1
    simp only [entriesOf_some, List.map_append, List.sum_append, List.map_cons,
      List.map_nil, List.sum_cons, List.sum_nil] at *
    refine ⟨by omega, fun hc => by simp at hc⟩
  | writeBatch k hph hne =>
    have hlen : (concatVals (entriesOf s.fs.processing)).length
        = ((entriesOf s.fs.processing).map (fun e => e.val.length)).sum :=
      length_concatVals _
    simp only [entriesOf_some, List.map_append, List.sum_append, List.map_cons,
      List.map_nil, List.sum_cons, List.sum_nil] at *
    exact ⟨by omega, fun _ => by omega⟩
  | clearStaging hph =>
    have h2' := h2 hph
    simp only [entriesOf_none, List.map_nil, List.sum_nil] at *
    exact ⟨by omega, fun hc => by simp at hc⟩
  | crash =>
    exact ⟨h1, fun hc => by simp at hc⟩

theorem bytesInv_reach {s : PipeState} (h : Reach s) : bytesInv s := by
  induction h with
  | init => exact ⟨by decide, by decide⟩
  | step _ hs ih => exact bytesInv_step hs ih

theorem presInv_step {s s' : PipeState} (hs : Step s s') (hi : presInv s) : presInv s' := by
  obtain ⟨h1, h2⟩ := hi
  cases hs with
  | deposit k b hk =>
    constructor
    · intro e he
      rcases List.mem_append.mp he with he | he
      · rcases h1 e he with h | h | h
        · left; simp only [entriesOf_some]; exact List.mem_append_left _ h
        · right; left; exact h
        · right; right; exact h
      · left; simp only [entriesOf_some]; exact List.mem_append_right _ he
    · intro hc e he
      rcases List.mem_append.mp he with he | he
      · rcases h2 hc e he with h | h
        · left; simp only [entriesOf_some]; exact List.mem_append_left _ h
        · right; exact h
      · left; simp only [entriesOf_some]; exact List.mem_append_right _ he
  | moveOne l e hp he hk hph =>
    refine ⟨?_, fun hc => by simp at hc⟩
    intro e' he'
    have hpres := h1 e' he'
    unfold present at hpres ⊢
    rw [hp] at hpres
    simp only [entriesOf_some] at hpres ⊢
    rcases hpres with h | h | h
    · by_cases hee : e' = e
      · subst hee
        right; left
        exact List.mem_append_right _ (by simp)
      · left
        exact (List.mem_erase_of_ne hee).mpr h
    · right; left
      exact List.mem_append_left _ h
    · right; right
      exact h
  | writeBatch k hph hne =>
    have key : ∀ e' ∈ s.log, e' ∈ entriesOf s.fs.pending ∨
        inQueue e' ⟨s.fs.pending, s.fs.processing,
          some (entriesOf s.fs.spendables ++
            [⟨k, concatVals (entriesOf s.fs.processing)⟩])⟩ := by
      intro e' he'
      rcases h1 e' he' with h | h | h
      · left; exact h
      · right
        unfold inQueue
        simp only [entriesOf_some, List.any_append, Bool.or_eq_true]
        right
        simp [hasSeg_concatVals h]
      · right
        unfold inQueue at h ⊢
        simp only [entriesOf_some, List.any_append, Bool.or_eq_true]
        left; exact h
    refine ⟨?_, fun _ => key⟩
    intro e' he'
    rcases key e' he' with h | h
    · left; exact h
    · right; right; exact h
  | clearStaging hph =>
    have key := h2 hph
    refine ⟨?_, fun hc => by simp at hc⟩
    intro e' he'
    rcases key e' he' with h | h
    · left; exact h
    · right; right; exact h
  | crash =>
    exact ⟨h1, fun hc => by simp at hc⟩

theorem presInv_reach {s : PipeState} (h : Reach s) : presInv s := by
  induction h with
  | init =>
    refine ⟨fun e he => ?_, fun hc => by simp [init0] at hc⟩
    simp [init0] at he
  | step _ hs ih => exact presInv_step hs ih

/-- Transport a step to a syntactically different but equal target state. -/
theorem Reach.stepTo {s s' t : PipeState} (h : Reach s) (hs : Step s s')
    (he : s' = t) : Reach t := he ▸ Reach.step h hs

theorem reach_dupS1 : Reach dupS1 :=
  Reach.stepTo Reach.init
    (Step.deposit init0 keyHex (encodeDesc descA) (by decide)) (by decide)

theorem reach_dupS3 : Reach dupS3 := by
  have r2 : Reach dupS2 :=
    Reach.stepTo reach_dupS1
      (Step.moveOne dupS1 [entA] entA (by decide) (by decide) (by decide) (by decide))
      (by decide)
  exact Reach.stepTo r2 (Step.writeBatch dupS2 keyB (by decide) (by decide)) (by decide)

/-- With a configured YUV client, the per-transaction loop never panics:
it broadcasts (and publishes proofs for) exactly the transactions the token
layer accepts, and logs the rejection reason of the others. -/
theorem processTxs_spec (ex : Externals) (hyuv : ex.yuvPresent = true) :
    ∀ (txs : List Tx) (fx : Effects),
    processTxs ex txs fx = Outcome.done
      ⟨fx.proofs ++ txs.filter (fun t => (ex.emulate t).isNone),
       fx.broadcasts ++ txs.filter (fun t => (ex.emulate t).isNone),
       fx.logged ++ txs.filterMap (fun t =>
         (ex.emulate t).map (fun r => "Invalid spending YUV tx: " ++ r))⟩ := by
  intro txs
  induction txs with
  | nil => intro fx; simp [processTxs]
  | cons t ts ih =>
    intro fx
    simp only [processTxs, hyuv, if_true]
    cases hem : ex.emulate t with
    | some r => simp [hem, ih, List.append_assoc]
    | none => simp [hem, ih, List.append_assoc]

theorem processBatch_done (ex : Externals) (hyuv : ex.yuvPresent = true) (e : Entry)
    (fx : Effects) (hdec : (streamDecode e.val).isSome) :
    ∃ fx', processBatch ex e fx = Outcome.done fx' := by
  cases hsd : streamDecode e.val with
  | none => rw [hsd] at hdec; simp at hdec
  | some outs =>
    by_cases hck : ex.changeKeyOk
    · cases hsg : ex.sign outs with
      | error err =>
        exact ⟨{ fx with logged := fx.logged ++ [err] },
          by simp [processBatch, hsd, hck, hsg]⟩
      | ok txs =>
        refine ⟨⟨fx.proofs ++ txs.filter (fun t => (ex.emulate t).isNone),
          fx.broadcasts ++ txs.filter (fun t => (ex.emulate t).isNone),
          fx.logged ++ txs.filterMap (fun t =>
            (ex.emulate t).map (fun r => "Invalid spending YUV tx: " ++ r))⟩, ?_⟩
        simp only [processBatch, hsd, hck, if_true, hsg]
        exact processTxs_spec ex hyuv txs fx
    · simp only [Bool.not_eq_true] at hck
      exact ⟨{ fx with logged := fx.logged ++ ["Failed to get change YUV pubkey"] },
        by simp [processBatch, hsd, hck]⟩

theorem processBatches_done (ex : Externals) (hyuv : ex.yuvPresent = true) :
    ∀ (es : List Entry) (fx : Effects),
    (∀ e ∈ es, (streamDecode e.val).isSome) →
    ∃ fx', processBatches ex es fx = Outcome.done fx' := by
  intro es
  induction es with
  | nil => intro fx _; exact ⟨fx, rfl⟩
  | cons e es ih =>
    intro fx hdec
    obtain ⟨fx1, hfx1⟩ := processBatch_done ex hyuv e fx (hdec e (by simp))
    obtain ⟨fx2, hfx2⟩ := ih fx1 (fun e' he' => hdec e' (by simp [he']))
    exact ⟨fx2, by simp [processBatches, hfx1, hfx2]⟩

/-- When wallet change-key resolution fails, every batch is abandoned with
only a log line: nothing is signed, broadcast or proof-published. -/
theorem processBatches_keyFail (ex : Externals) (hck : ex.changeKeyOk = false) :
    ∀ (es : List Entry) (fx : Effects),
    (∀ e ∈ es, (streamDecode e.val).isSome) →
    ∃ lg, processBatches ex es fx = Outcome.done ⟨fx.proofs, fx.broadcasts, lg⟩ := by
  intro es
  induction es with
  | nil =>
    intro fx _
    exact ⟨fx.logged, rfl⟩
  | cons e es ih =>
    intro fx hdec
    have hd := hdec e (by simp)
    cases hsd : streamDecode e.val with
    | none => rw [hsd] at hd; simp at hd
    | some outs =>
      have hpb : processBatch ex e fx = Outcome.done
          { fx with logged := fx.logged ++ ["Failed to get change YUV pubkey"] } := by
        simp [processBatch, hsd, hck]
      obtain ⟨lg, hrec⟩ :=
        ih { fx with logged := fx.logged ++ ["Failed to get change YUV pubkey"] }
          (fun e' he' => hdec e' (by simp [he']))
      exact ⟨lg, by simp [processBatches, hpb, hrec]⟩

theorem consolidate_spec (st : FsState) (k : String) (l : List Entry)
    (hp : st.pending = some l) :
    consolidate k noFaults st = Except.ok (consolidateResult k st l) := by
  unfold consolidate consolidateResult conformingOf
  rw [hp]
  simp only [entriesOf_some]
  split_ifs <;> first | rfl | simp_all [noFaults]

theorem isEmpty_false_of_ne_nil {α : Type} {l : List α} (h : ¬ l = []) :
    l.isEmpty = false := by
  cases l with
  | nil => exact absurd rfl h
  | cons a l => rfl

/-- C7: running the stream-decode loop of the sweep engine on the concatenation
of the self-framed encodings of two well-formed descriptors yields exactly
the two original descriptors, in order, with no spurious third record. -/
theorem C7_decode_concat (d1 d2 : Descriptor) (h1 : wfDesc d1) (h2 : wfDesc d2) :
    streamDecode (encodeDesc d1 ++ encodeDesc d2) = some [d1, d2] := by
  rw [streamDecode_encode_cons d1 _ h1]
  have hd2 : streamDecode (encodeDesc d2) = some [d2] := by
    have h := streamDecode_encode_cons d2 [] h2
    simpa [streamDecode_nil] using h
  rw [hd2]
  rfl

/-- C7 witness: the round trip at the concrete descriptors of the spec scenario
(40 and 55 encoded bytes). -/
theorem C7_decode_concat_w :
    wfDesc descA ∧ wfDesc descB ∧
      streamDecode (encodeDesc descA ++ encodeDesc descB) = some [descA, descB] :=
  ⟨by decide, by decide, C7_decode_concat descA descB (by decide) (by decide)⟩

/-- C9: within one batch signed into several transactions, a token-layer
rejection of one transaction only logs the reason and skips proof
publication and broadcast for that transaction only; the remaining transaction is
still validated, its proofs are published, and it is broadcast. -/
theorem C9_rejection_isolated (ex : Externals) (t1 t2 : Tx) (r : String) (fx : Effects)
    (hyuv : ex.yuvPresent = true)
    (h1 : ex.emulate t1 = some r) (h2 : ex.emulate t2 = none) :
    processTxs ex [t1, t2] fx = Outcome.done
      ⟨fx.proofs ++ [t2], fx.broadcasts ++ [t2],
       fx.logged ++ ["Invalid spending YUV tx: " ++ r]⟩ := by
  have h := processTxs_spec ex hyuv [t1, t2] fx
  simpa [h1, h2] using h

/-- C9 witness: a batch of two transactions where the first is rejected. -/
theorem C9_rejection_isolated_w :
    processTxs exC9 [⟨1⟩, ⟨2⟩] Effects.empty = Outcome.done
      ⟨[⟨2⟩], [⟨2⟩], ["Invalid spending YUV tx: bad proof"]⟩ := by
  have h := C9_rejection_isolated exC9 ⟨1⟩ ⟨2⟩ "bad proof" Effects.empty rfl rfl rfl
  simpa [Effects.empty] using h

/-- C4 (amended): the failures the code actually handles — an intake-scan
error, a wallet change-key failure, a signing error, and token-layer
rejections — only log, and the tick runs to completion so the scheduler
proceeds to the next tick. (Contrary to the claim as stated, relocation,
claim-batch-write and decode failures panic instead: see the
counterexample.) -/
theorem C4_handled_failures_complete (st : FsState) (ex : Externals) (f : Faults)
    (hscan : f.intakeScan = true)
    (hdec : ∀ e ∈ entriesOf st.spendables, (streamDecode e.val).isSome)
    (hyuv : ex.yuvPresent = true) :
    ∃ st' fx, tick ex f st = Outcome.done (st', fx) := by
  have hcons : consolidate ex.newKey f st = Except.ok st := by
    unfold consolidate
    simp [hscan]
  simp only [tick, hcons]
  cases hsp : st.spendables with
  | none => exact ⟨st, Effects.empty, by simp [sweepPhase, hsp]⟩
  | some es =>
    have hdec' : ∀ e ∈ es, (streamDecode e.val).isSome := by
      rw [hsp] at hdec
      exact hdec
    obtain ⟨fx', hfx⟩ := processBatches_done ex hyuv es Effects.empty hdec'
    exact ⟨⟨st.pending, st.processing, none⟩, fx', by simp [sweepPhase, hsp, hfx]⟩

/-- C4 witness: an intake-scan failure with a pending entry present; the
tick still completes. -/
theorem C4_handled_failures_complete_w :
    ∃ st' fx, tick exB scanFault stC4 = Outcome.done (st', fx) :=
  C4_handled_failures_complete stC4 exB scanFault rfl (by decide) rfl

/-- C4 counterexample: a relocation (`fs::rename`) failure on a conforming
intake entry makes the tick panic on `.unwrap()` (src/sweep.rs line 72)
instead of logging and proceeding — refuting "no failure terminates the
process, and the scheduler always proceeds to the next tick". -/
theorem C4_cex : tick exB renameFault stC4 = Outcome.panicked Effects.empty := by
  decide

/-- C5 (amended): on a consolidation tick where the concatenation of all
staged bytes is empty, no claim-queue entry is written — but, contrary to
the claim as stated, the staging keyspace is NOT cleared: it still holds the
previously staged entries plus those relocated this tick. -/
theorem C5_empty_concat_no_write (st : FsState) (k : String) (l : List Entry)
    (hp : st.pending = some l)
    (hemp : concatVals (entriesOf st.processing ++ conformingOf l) = []) :
    ∃ st', consolidate k noFaults st = Except.ok st' ∧
      st'.spendables = st.spendables ∧
      entriesOf st'.processing = entriesOf st.processing ++ conformingOf l := by
  have key : (consolidateResult k st l).spendables = st.spendables ∧
      entriesOf (consolidateResult k st l).processing =
        entriesOf st.processing ++ conformingOf l := by
    by_cases hconf : conformingOf l = []
    · have hemp' : concatVals (entriesOf st.processing) = [] := by
        simpa [hconf] using hemp
      simp [consolidateResult, hconf, hemp']
    · have hie := isEmpty_false_of_ne_nil hconf
      simp [consolidateResult, hie, hemp]
  exact ⟨consolidateResult k st l, consolidate_spec st k l hp, key.1, key.2⟩

/-- C5 witness: one conforming intake entry with empty value — nothing is
written and the entry survives in staging. -/
theorem C5_empty_concat_no_write_w :
    ∃ st', consolidate keyB noFaults stC5 = Except.ok st' ∧
      st'.spendables = stC5.spendables ∧
      entriesOf st'.processing = entriesOf stC5.processing ++ conformingOf [⟨keyA, []⟩] :=
  C5_empty_concat_no_write stC5 keyB [⟨keyA, []⟩] rfl (by decide)

/-- C5 counterexample: after a full tick on an intake entry with empty
value, staging still holds that entry — refuting "the staging keyspace is
nevertheless cleared, leaving staging empty after the tick". -/
theorem C5_cex :
    tick exB noFaults stC5 =
      Outcome.done (⟨some [], some [⟨keyA, []⟩], none⟩, Effects.empty) ∧
    ¬ entriesOf (⟨some [], some [⟨keyA, []⟩], none⟩ : FsState).processing = [] :=
  ⟨by decide, by decide⟩

/-- C6 (amended): a consolidation tick relocates an intake entry if and only
if its key is exactly 64 characters long — hexadecimal content is NOT
checked; a non-conforming key such as "tmp_abc" is left untouched, and any
claim batch written consists exactly of the previously staged bytes followed
by the bytes of the relocated (length-64) entries. -/
theorem C6_length_only_relocation (st : FsState) (k : String) (l : List Entry)
    (hp : st.pending = some l) :
    ∃ st', consolidate k noFaults st = Except.ok st' ∧
      st'.pending = some (l.filter (fun e => ¬ e.key.length = 64)) ∧
      (∀ e ∈ l, (conforming e ↔ ¬ e ∈ entriesOf st'.pending)) ∧
      (st'.spendables = st.spendables ∨
        st'.spendables = some (entriesOf st.spendables ++
          [⟨k, concatVals (entriesOf st.processing ++ conformingOf l)⟩])) := by
  have hpend : (consolidateResult k st l).pending =
      some (l.filter (fun e => ¬ e.key.length = 64)) := by
    simp only [consolidateResult]
    split_ifs <;> rfl
  have hiff : ∀ e ∈ l, (conforming e ↔ ¬ e ∈ entriesOf (consolidateResult k st l).pending) := by
    intro e he
    rw [hpend]
    simp only [entriesOf_some, List.mem_filter]
    unfold conforming
    constructor
    · rintro hc ⟨_, hdecide⟩
      simp only [decide_eq_true_eq] at hdecide
      exact hdecide hc
    · intro hn
      by_contra hc
      exact hn ⟨he, by simpa using hc⟩
  have hsp : (consolidateResult k st l).spendables = st.spendables ∨
      (consolidateResult k st l).spendables = some (entriesOf st.spendables ++
        [⟨k, concatVals (entriesOf st.processing ++ conformingOf l)⟩]) := by
    by_cases hconf : conformingOf l = []
    · simp only [consolidateResult, hconf, List.isEmpty_nil, if_true, List.append_nil]
      split_ifs
      · left; rfl
      · right; rfl
    · have hie := isEmpty_false_of_ne_nil hconf
      simp only [consolidateResult, hie, Bool.false_eq_true, if_false, entriesOf_some]
      split_ifs
      · left; rfl
      · right; rfl
  exact ⟨consolidateResult k st l, consolidate_spec st k l hp, hpend, hiff, hsp⟩

/-- C6 witness: the "tmp_abc" scenario of the spec — the entry stays in intake
and no batch containing its bytes is written. -/
theorem C6_length_only_relocation_w :
    ∃ st', consolidate keyB noFaults (⟨some [⟨"tmp_abc", [5, 5]⟩], none, none⟩ : FsState) =
        Except.ok st' ∧
      st'.pending = some ([⟨"tmp_abc", [5, 5]⟩].filter (fun e => ¬ e.key.length = 64)) ∧
      (∀ e ∈ [(⟨"tmp_abc", [5, 5]⟩ : Entry)], (conforming e ↔ ¬ e ∈ entriesOf st'.pending)) ∧
      ((⟨some [⟨"tmp_abc", [5, 5]⟩], none, none⟩ : FsState).spendables = st'.spendables ∨
        st'.spendables = some (entriesOf (⟨some [⟨"tmp_abc", [5, 5]⟩], none, none⟩ : FsState).spendables ++
          [⟨keyB, concatVals (entriesOf (⟨some [⟨"tmp_abc", [5, 5]⟩], none, none⟩ : FsState).processing ++
            conformingOf [⟨"tmp_abc", [5, 5]⟩])⟩])) := by
  obtain ⟨st', h1, h2, h3, h4⟩ :=
    C6_length_only_relocation ⟨some [⟨"tmp_abc", [5, 5]⟩], none, none⟩ keyB
      [⟨"tmp_abc", [5, 5]⟩] rfl
  exact ⟨st', h1, h2, h3, by rcases h4 with h | h; exact Or.inl h.symm; exact Or.inr h⟩

/-- C6 counterexample: a 64-character but non-hexadecimal key ("zzz…z") IS
relocated and its bytes DO appear in a claim-queue entry — the code checks
only `file_name().len() == 64` (src/sweep.rs line 67), refuting the
"if and only if … hexadecimal identifier format" claim. -/
theorem C6_cex :
    consolidate keyB noFaults stC6 =
      Except.ok ⟨some [], none, some [⟨keyB, encodeDesc descA⟩]⟩ ∧
    hasSeg (encodeDesc descA) (concatVals (entriesOf
      (⟨some [], none, some [⟨keyB, encodeDesc descA⟩]⟩ : FsState).spendables)) = true :=
  ⟨by decide, by decide⟩

/-- C3 (amended): on the concrete scenario of the spec, after the consolidation
phase of the first tick the claim queue holds exactly one 95-byte entry and
intake and staging are empty; by the end of that same full tick — whatever
the wallet, signing, validation and broadcast outcomes — the claim queue is
already empty again (consolidation and sweep happen within one tick). -/
theorem C3_one_entry_then_empty (ex : Externals)
    (hyuv : ex.yuvPresent = true) (hk : ex.newKey = keyB) :
    (consolidate ex.newKey noFaults stC3 = Except.ok stMidC3 ∧
      entriesOf stMidC3.spendables = [⟨keyB, bytesC3⟩] ∧ bytesC3.length = 95 ∧
      entriesOf stMidC3.pending = [] ∧ entriesOf stMidC3.processing = []) ∧
    (∃ fx, tick ex noFaults stC3 = Outcome.done (⟨some [], none, none⟩, fx)) := by
  have hcons : consolidate ex.newKey noFaults stC3 = Except.ok stMidC3 := by
    rw [hk]; decide
  refine ⟨⟨hcons, by decide, by decide, by decide, by decide⟩, ?_⟩
  obtain ⟨fx', hfx⟩ := processBatch_done ex hyuv ⟨keyB, bytesC3⟩ Effects.empty (by decide)
  refine ⟨fx', ?_⟩
  simp only [tick, hcons, stMidC3, sweepPhase, processBatches, hfx]

/-- C3 witness: the scenario evaluated with benign externals. -/
theorem C3_one_entry_then_empty_w :
    (consolidate exB.newKey noFaults stC3 = Except.ok stMidC3 ∧
      entriesOf stMidC3.spendables = [⟨keyB, bytesC3⟩] ∧ bytesC3.length = 95 ∧
      entriesOf stMidC3.pending = [] ∧ entriesOf stMidC3.processing = []) ∧
    (∃ fx, tick exB noFaults stC3 = Outcome.done (⟨some [], none, none⟩, fx)) :=
  C3_one_entry_then_empty exB rfl rfl

/-- C3 counterexample: after ONE full tick on the spec scenario the claim
queue holds zero entries, not one 95-byte entry — the newly consolidated
batch is swept and deleted within the same tick. -/
theorem C3_cex :
    tick exB noFaults stC3 = Outcome.done (⟨some [], none, none⟩, ⟨[⟨0⟩], [⟨0⟩], []⟩) ∧
    entriesOf (⟨some [], none, none⟩ : FsState).spendables = [] :=
  ⟨by decide, rfl⟩

/-- C8: when wallet change-key resolution fails during a tick, only the
batches of that tick are abandoned — nothing is signed, proof-published or
broadcast — the tick still completes, the claim-queue entries are still
removed by the tick-end cleanup, and a deposit made after the failed tick is
consolidated and swept normally by the following tick. -/
theorem C8_keyfail_isolated (st : FsState) (ex ex2 : Externals) (es : List Entry)
    (d : Descriptor) (kd : String) (txs2 : List Tx)
    (hpend : st.pending = none) (hproc : st.processing = none)
    (hq : st.spendables = some es)
    (hck : ex.changeKeyOk = false)
    (hdec : ∀ e ∈ es, (streamDecode e.val).isSome)
    (hk : kd.length = 64) (hw : wfDesc d)
    (hck2 : ex2.changeKeyOk = true) (hyuv2 : ex2.yuvPresent = true)
    (hsign2 : ex2.sign [d] = Except.ok txs2)
    (hem2 : ∀ t ∈ txs2, ex2.emulate t = none) :
    (∃ fx, tick ex noFaults st = Outcome.done (⟨none, none, none⟩, fx) ∧
      fx.broadcasts = [] ∧ fx.proofs = []) ∧
    tick ex2 noFaults ⟨some [⟨kd, encodeDesc d⟩], none, none⟩ =
      Outcome.done (⟨some [], none, none⟩, ⟨txs2, txs2, []⟩) := by
  constructor
  · obtain ⟨p, pr, sp⟩ := st
    simp only at hpend hproc hq
    subst hpend hproc hq
    obtain ⟨lg, hpb⟩ := processBatches_keyFail ex hck es Effects.empty hdec
    refine ⟨⟨[], [], lg⟩, ?_, rfl, rfl⟩
    have hcons : consolidate ex.newKey noFaults ⟨none, none, some es⟩ =
        Except.ok ⟨none, none, some es⟩ := rfl
    simp only [tick, hcons, sweepPhase, hpb]
    rfl
  · have hres2 := consolidate_spec ⟨some [⟨kd, encodeDesc d⟩], none, none⟩ ex2.newKey
      [⟨kd, encodeDesc d⟩] rfl
    have hcr : consolidateResult ex2.newKey ⟨some [⟨kd, encodeDesc d⟩], none, none⟩
        [⟨kd, encodeDesc d⟩] = ⟨some [], none, some [⟨ex2.newKey, encodeDesc d⟩]⟩ := by
      simp [consolidateResult, conformingOf, List.filter, hk, encodeDesc, concatVals]
    rw [hcr] at hres2
    have hsd : streamDecode (encodeDesc d) = some [d] := by
      have h := streamDecode_encode_cons d [] hw
      simpa [streamDecode_nil] using h
    have htx : processTxs ex2 txs2 Effects.empty = Outcome.done ⟨txs2, txs2, []⟩ := by
      have h := processTxs_spec ex2 hyuv2 txs2 Effects.empty
      have hfilter : txs2.filter (fun t => (ex2.emulate t).isNone) = txs2 := by
        apply List.filter_eq_self.mpr
        intro t ht
        simp [hem2 t ht]
      have hfm : txs2.filterMap (fun t =>
          (ex2.emulate t).map (fun r => "Invalid spending YUV tx: " ++ r)) = [] := by
        apply List.filterMap_eq_nil_iff.mpr
        intro t ht
        simp [hem2 t ht]
      rw [hfilter, hfm] at h
      simpa [Effects.empty] using h
    have hpb : processBatch ex2 ⟨ex2.newKey, encodeDesc d⟩ Effects.empty =
        Outcome.done ⟨txs2, txs2, []⟩ := by
      simp [processBatch, hsd, hck2, hsign2, htx]
    simp only [tick, hres2, sweepPhase, processBatches, hpb]

/-- C8 witness: a concrete failed tick followed by a concrete recovery tick. -/
theorem C8_keyfail_isolated_w :
    (∃ fx, tick exKeyFail noFaults ⟨none, none, some [⟨keyA, encodeDesc descA⟩]⟩ =
        Outcome.done (⟨none, none, none⟩, fx) ∧ fx.broadcasts = [] ∧ fx.proofs = []) ∧
    tick exB noFaults ⟨some [⟨keyHex, encodeDesc descA⟩], none, none⟩ =
      Outcome.done (⟨some [], none, none⟩, ⟨[⟨0⟩], [⟨0⟩], []⟩) :=
  C8_keyfail_isolated ⟨none, none, some [⟨keyA, encodeDesc descA⟩]⟩ exKeyFail exB
    [⟨keyA, encodeDesc descA⟩] descA keyHex [⟨0⟩] rfl rfl rfl rfl (by decide)
    (by decide) (by decide) rfl rfl rfl (by intro t ht; rfl)

/-- C10: evaluation at the failing input — with no token-layer client
configured (`yuv_client` is `None`) and a nonempty claim batch that decodes
and signs, the sweep panics at `yuv_client.as_ref().unwrap()`
(src/sweep.rs lines 140-142) before broadcasting anything, instead of taking
a no-token-metadata path with identical broadcast semantics. -/
theorem C10_absent_client_panics :
    tick exNoYuv noFaults stC10 = Outcome.panicked Effects.empty := by
  decide

/-- C1 (amended): every entry recorded in intake is present in AT LEAST one
of the three keyspaces at every reachable instant (arbitrary deposits,
consolidation steps and crashes) before the sweep cleanup; "exactly one"
fails in the window between the claim-batch write and the staging removal,
where the bytes are in both staging and the claim queue (see the
counterexample). -/
theorem C1_present_somewhere (s : PipeState) (h : Reach s) (e : Entry)
    (he : e ∈ s.log) : present e s.fs :=
  (presInv_reach h).1 e he

/-- C1 witness: the freshly deposited entry is present after its deposit. -/
theorem C1_present_somewhere_w : present entA dupS1.fs :=
  C1_present_somewhere dupS1
    (Reach.stepTo Reach.init
      (Step.deposit init0 keyHex (encodeDesc descA) (by decide)) (by decide))
    entA (by decide)

/-- C1 counterexample: the reachable state between the claim-batch write
(src/sweep.rs line 85-87) and the staging removal (line 88): the deposited
descriptor is present in TWO keyspaces (staging and claim queue), refuting
"present in exactly one … at every instant". -/
theorem C1_cex : Reach dupS3 ∧ entA ∈ dupS3.log ∧ presCount entA dupS3.fs = 2 :=
  ⟨reach_dupS3, by decide, by decide⟩

/-- C2 (amended): across deposits, consolidation steps and crashes at any
instruction boundary (all strictly before any sweep-tick cleanup), the total
descriptor bytes across intake, staging and claim queue are AT LEAST the
total bytes deposited — no byte is lost; exact equality fails because a
crash between the claim-batch write and the staging removal duplicates the
staged bytes (see the counterexample). -/
theorem C2_no_byte_loss (s : PipeState) (h : Reach s) :
    depositedBytes s.log ≤ totalBytes s.fs :=
  (bytesInv_reach h).1

/-- C2 witness: byte conservation at the state after one deposit. -/
theorem C2_no_byte_loss_w : depositedBytes dupS1.log ≤ totalBytes dupS1.fs :=
  C2_no_byte_loss dupS1
    (Reach.stepTo Reach.init
      (Step.deposit init0 keyHex (encodeDesc descA) (by decide)) (by decide))

/-- C2 counterexample: in the reachable state between the claim-batch write
and the staging removal, 40 bytes were deposited but 80 bytes sit across
the keyspaces — the total does not equal the deposited total. -/
theorem C2_cex : Reach dupS3 ∧ totalBytes dupS3.fs = 80 ∧
    depositedBytes dupS3.log = 40 :=
  ⟨reach_dupS3, by decide, by decide⟩

end SweepModel
